import Mathlib

/-!
Verification of the `xor` file-transform tool (src/main.rs): a shallow
embedding of the byte transform, the chunked stream-processing loop, the
output-path derivation, the directory walk with output-directory exclusion,
the hex key parsing, and the throttled progress updates, together with
theorems settling the spec's testable properties.

Bytes are modelled as `Nat` (always < 256 in practice; XOR never overflows),
paths as lists of components (`List String`), and a directory snapshot as an
ordered tree.
-/

/-- `OUTPUT_DIR`: the reserved output directory name (src/main.rs:19). -/
def OUTPUT_DIR : String := "xor"

/-- The fixed chunk size of the streaming read loop: 64 KiB
    (`vec![0u8; 64 * 1024]`, src/main.rs:217). -/
def CHUNK : Nat := 64 * 1024

/-- Helper for `xor_encrypt`: XOR the bytes of `data` against the repeating
    key, where `i` is the index of the head of `data` within the buffer
    passed to one `xor_encrypt` call.  Mirrors the
    `for (i, byte) in data.iter_mut().enumerate()` loop body
    `*byte ^= key[i % key.len()]` (src/main.rs:269-271). -/
def xorEncryptFrom (key : List Nat) : Nat → List Nat → List Nat
  | _, [] => []
  | i, b :: rest => (b ^^^ key.getD (i % key.length) 0) :: xorEncryptFrom key (i + 1) rest

/-- Embeds `xor_encrypt` (src/main.rs:264-272): for an empty key the buffer
    is returned unchanged, otherwise byte `i` becomes
    `data[i] XOR key[i % key.len()]`. -/
def xor_encrypt (data key : List Nat) : List Nat :=
  if key.isEmpty then data else xorEncryptFrom key 0 data

theorem xorEncryptFrom_length (key : List Nat) (i : Nat) (data : List Nat) :
    (xorEncryptFrom key i data).length = data.length := by
  induction data generalizing i with
  | nil => rfl
  | cons b rest ih => simp [xorEncryptFrom, ih]

theorem xorEncryptFrom_getElem? (key : List Nat) (i j : Nat) (data : List Nat) :
    (xorEncryptFrom key i data)[j]?
      = (data[j]?).map (fun b => b ^^^ key.getD ((i + j) % key.length) 0) := by
  induction data generalizing i j with
  | nil => simp [xorEncryptFrom]
  | cons b rest ih =>
    cases j with
    | zero => simp [xorEncryptFrom]
    | succ j =>
      have h := ih (i + 1) j
      simp only [xorEncryptFrom, List.getElem?_cons_succ, h]
      have : i + 1 + j = i + (j + 1) := by omega
      rw [this]

theorem xorEncryptFrom_involutive (key : List Nat) (i : Nat) (data : List Nat) :
    xorEncryptFrom key i (xorEncryptFrom key i data) = data := by
  induction data generalizing i with
  | nil => rfl
  | cons b rest ih =>
    simp [xorEncryptFrom, ih, Nat.xor_assoc]

/-- C3: for every byte sequence `data` and every non-empty key, applying the
    byte transform twice, with the key phase starting at index 0 both times,
    returns the original bytes. -/
theorem xor_encrypt_involution (data key : List Nat) (hk : key ≠ []) :
    xor_encrypt (xor_encrypt data key) key = data := by
  cases key with
  | nil => exact absurd rfl hk
  | cons k ks => simp [xor_encrypt, xorEncryptFrom_involutive]

/-- Witness for C3 at a concrete buffer and key. -/
theorem xor_encrypt_involution_witness :
    ([1, 2, 3] : List Nat) ≠ [] ∧
      xor_encrypt (xor_encrypt [0, 1, 255] [1, 2, 3]) [1, 2, 3] = [0, 1, 255] :=
  ⟨by decide, xor_encrypt_involution [0, 1, 255] [1, 2, 3] (by decide)⟩

/-- C8: applying the byte transform with an empty key leaves the buffer
    unchanged (a documented degenerate case, not an error). -/
theorem xor_encrypt_empty_key (data : List Nat) : xor_encrypt data [] = data := rfl

theorem xor_encrypt_of_ne_nil (data : List Nat) {key : List Nat} (hk : key ≠ []) :
    xor_encrypt data key = xorEncryptFrom key 0 data := by
  unfold xor_encrypt
  rw [if_neg (by simp [hk])]

theorem xor_encrypt_length (data key : List Nat) :
    (xor_encrypt data key).length = data.length := by
  unfold xor_encrypt
  split
  · rfl
  · exact xorEncryptFrom_length key 0 data

/-- The chunked read/transform loop of `process_file` (src/main.rs:220-236):
    each iteration reads `read_count = min CHUNK (remaining bytes)` bytes,
    applies `xor_encrypt` to that chunk alone (so the key phase restarts at
    index 0 at every chunk boundary) and appends it to the output.  `fuel`
    bounds the number of iterations; since each iteration on non-empty data
    consumes at least one byte, `fuel = data.length` is always enough. -/
def processChunksAux (key : List Nat) : Nat → List Nat → List Nat
  | 0, _ => []
  | fuel + 1, data =>
    if data.isEmpty then []
    else xor_encrypt (data.take CHUNK) key ++ processChunksAux key fuel (data.drop CHUNK)

/-- The byte sequence that `process_file` writes to the output file, as a
    function of the input file's bytes and the key. -/
def processChunks (key data : List Nat) : List Nat :=
  processChunksAux key data.length data

theorem processChunksAux_fuel (key : List Nat) (fuel fuel' : Nat) (data : List Nat)
    (h : data.length ≤ fuel) (h' : data.length ≤ fuel') :
    processChunksAux key fuel data = processChunksAux key fuel' data := by
  induction fuel generalizing fuel' data with
  | zero =>
    have hd : data = [] := List.length_eq_zero.mp (Nat.le_zero.mp h)
    cases fuel' with
    | zero => rfl
    | succ f => simp [processChunksAux, hd]
  | succ f ih =>
    cases fuel' with
    | zero =>
      have hd : data = [] := List.length_eq_zero.mp (Nat.le_zero.mp h')
      simp [processChunksAux, hd]
    | succ g =>
      by_cases hd : data = []
      · simp [processChunksAux, hd]
      · have hne : ¬(data.isEmpty = true) := by simp [hd]
        have hlen : (data.drop CHUNK).length ≤ f := by
          have h1 : 0 < data.length := List.length_pos.mpr hd
          simp only [List.length_drop]
          have h2 : 0 < CHUNK := by decide
          omega
        have hlen' : (data.drop CHUNK).length ≤ g := by
          have h1 : 0 < data.length := List.length_pos.mpr hd
          simp only [List.length_drop]
          have h2 : 0 < CHUNK := by decide
          omega
        simp only [processChunksAux]
        rw [if_neg hne, if_neg hne, ih g (data.drop CHUNK) hlen hlen']

theorem processChunks_nil (key : List Nat) : processChunks key [] = [] := rfl

/-- Unfolding the chunk loop one iteration on non-empty data. -/
theorem processChunks_cons (key : List Nat) (data : List Nat) (hd : data ≠ []) :
    processChunks key data
      = xor_encrypt (data.take CHUNK) key ++ processChunks key (data.drop CHUNK) := by
  have hne : ¬(data.isEmpty = true) := by simp [hd]
  cases hlen : data.length with
  | zero => exact absurd (List.length_eq_zero.mp hlen) hd
  | succ n =>
    show processChunksAux key data.length data = _
    rw [hlen]
    simp only [processChunksAux]
    rw [if_neg hne]
    congr 1
    apply processChunksAux_fuel
    · simp only [List.length_drop, hlen]
      have h2 : 0 < CHUNK := by decide
      omega
    · exact le_refl _

/-- Byte-level characterization of the chunk loop's output: since
    `xor_encrypt` is applied to each 64 KiB chunk separately, the key phase
    used for the byte at file-global offset `i` is `(i % CHUNK) % key.length`,
    not `i % key.length`. -/
theorem processChunks_byte (key : List Nat) (hk : key ≠ []) :
    ∀ (n : Nat) (data : List Nat), data.length ≤ n → ∀ i, i < data.length →
      (processChunks key data)[i]?
        = (data[i]?).map (fun b => b ^^^ key.getD ((i % CHUNK) % key.length) 0) := by
  intro n
  induction n with
  | zero => intro data h i hi; omega
  | succ n ih =>
    intro data h i hi
    have hc : CHUNK = 65536 := rfl
    have hd : data ≠ [] := by
      intro he; rw [he] at hi; simp at hi
    rw [processChunks_cons key data hd]
    have hxl : (xor_encrypt (data.take CHUNK) key).length = min CHUNK data.length := by
      rw [xor_encrypt_length, List.length_take]
    by_cases hic : i < CHUNK
    · have hilt : i < (xor_encrypt (data.take CHUNK) key).length := by
        rw [hxl]; omega
      rw [List.getElem?_append_left hilt]
      rw [xor_encrypt_of_ne_nil _ hk]
      rw [xorEncryptFrom_getElem?]
      rw [List.getElem?_take_of_lt hic]
      rw [Nat.zero_add, Nat.mod_eq_of_lt hic]
    · have hile : (xor_encrypt (data.take CHUNK) key).length ≤ i := by
        rw [hxl]; omega
      rw [List.getElem?_append_right hile]
      have hmin : (xor_encrypt (data.take CHUNK) key).length = CHUNK := by
        rw [hxl]; omega
      rw [hmin]
      have hlen' : (data.drop CHUNK).length ≤ n := by
        simp only [List.length_drop]; omega
      have hi' : i - CHUNK < (data.drop CHUNK).length := by
        simp only [List.length_drop]; omega
      rw [ih (data.drop CHUNK) hlen' (i - CHUNK) hi']
      rw [List.getElem?_drop]
      have he1 : CHUNK + (i - CHUNK) = i := by omega
      have he2 : (i - CHUNK) % CHUNK = i % CHUNK := by
        conv_rhs => rw [show i = (i - CHUNK) + CHUNK by omega]
        rw [Nat.add_mod_right]
      rw [he1, he2]

/-- C1 is refuted: the bytes `process_file` writes are not whole-buffer
    application of the transform.  Concrete input: a file of 65537 zero
    bytes (one byte more than the 64 KiB chunk) and the 3-byte key
    `[1, 2, 3]`.  Output byte 65536 is `0 XOR key[0] = 1` because the key
    phase restarts at the second chunk, while whole-buffer application
    gives `0 XOR key[65536 % 3] = key[1] = 2`. -/
theorem processChunks_ne_whole_buffer :
    processChunks [1, 2, 3] (List.replicate (CHUNK + 1) 0)
      ≠ xor_encrypt (List.replicate (CHUNK + 1) 0) [1, 2, 3] := by
  intro h
  have hL : (List.replicate (CHUNK + 1) (0 : Nat)).length = CHUNK + 1 := by simp
  have h1 := processChunks_byte [1, 2, 3] (by decide) (CHUNK + 1)
      (List.replicate (CHUNK + 1) 0) (le_of_eq hL) CHUNK (by rw [hL]; omega)
  rw [h] at h1
  rw [xor_encrypt_of_ne_nil _ (by decide)] at h1
  rw [xorEncryptFrom_getElem?] at h1
  rw [List.getElem?_replicate_of_lt (show CHUNK < CHUNK + 1 by omega)] at h1
  exact absurd h1 (by decide)

/-- C1 (amended): the byte at file-global offset `i` of the output that
    `process_file` writes equals `B[i] XOR K[(i % 65536) % K.length]`: the
    key phase restarts at index 0 at every 64 KiB chunk boundary, so the
    output equals whole-buffer application only when the key length divides
    the chunk size or the file fits in a single chunk (in particular a file
    whose size is not a multiple of the chunk size is still fully
    transformed, the last partial chunk like the full ones). -/
theorem process_file_output_byte (key data : List Nat) (i : Nat)
    (hk : key ≠ []) (hi : i < data.length) :
    (processChunks key data)[i]?
      = (data[i]?).map (fun b => b ^^^ key.getD ((i % CHUNK) % key.length) 0) :=
  processChunks_byte key hk data.length data (le_refl _) i hi

theorem processChunksAux_nil_key :
    ∀ (fuel : Nat) (data : List Nat), data.length ≤ fuel →
      processChunksAux [] fuel data = data := by
  intro fuel
  induction fuel with
  | zero =>
    intro data h
    have hd := List.length_eq_zero.mp (Nat.le_zero.mp h)
    subst hd
    rfl
  | succ n ih =>
    intro data h
    by_cases hd : data = []
    · simp [processChunksAux, hd]
    · have hne : ¬(data.isEmpty = true) := by simp [hd]
      simp only [processChunksAux]
      rw [if_neg hne]
      have hxe : xor_encrypt (data.take CHUNK) [] = data.take CHUNK := rfl
      have hlen : (data.drop CHUNK).length ≤ n := by
        have h1 : 0 < data.length := List.length_pos.mpr hd
        have h2 : 0 < CHUNK := by decide
        simp only [List.length_drop]
        omega
      rw [hxe, ih (data.drop CHUNK) hlen]
      exact List.take_append_drop CHUNK data

/-- The value of one hex digit character, as accepted by the `hex` crate's
    decoder: `0`-`9`, `a`-`f`, `A`-`F`. -/
def hexDigitVal (c : Char) : Option Nat :=
  if '0' ≤ c ∧ c ≤ '9' then some (c.toNat - '0'.toNat)
  else if 'a' ≤ c ∧ c ≤ 'f' then some (c.toNat - 'a'.toNat + 10)
  else if 'A' ≤ c ∧ c ≤ 'F' then some (c.toNat - 'A'.toNat + 10)
  else none

/-- `hex::decode` (an external collaborator, treated by the spec as a pure
    string → byte-vector conversion): consecutive pairs of hex digits become
    bytes; an odd-length string or a non-hex character is an error; the
    empty string decodes to zero bytes. -/
def hexDecode : List Char → Option (List Nat)
  | [] => some []
  | [_] => none
  | c1 :: c2 :: rest =>
    match hexDigitVal c1, hexDigitVal c2, hexDecode rest with
    | some h, some l, some bs => some ((h * 16 + l) :: bs)
    | _, _, _ => none

/-- Embeds `parse_hex_key` (src/main.rs:155-167): strip one leading `0x` or
    `0X`, then hex-decode the remainder. -/
def parse_hex_key (s : String) : Option (List Nat) :=
  let cs := s.data
  let stripped :=
    if cs.take 2 = ['0', 'x'] then cs.drop 2
    else if cs.take 2 = ['0', 'X'] then cs.drop 2
    else cs
  hexDecode stripped

/-- C10: key parsing accepts `"0x"`, `"0X"` and `""`, returning the empty
    key rather than an error, and a run with the empty key copies every
    file's bytes unchanged. -/
theorem parse_hex_key_degenerate :
    parse_hex_key "0x" = some [] ∧ parse_hex_key "0X" = some [] ∧
      parse_hex_key "" = some [] ∧
      ∀ data : List Nat, processChunks [] data = data := by
  refine ⟨by decide, by decide, by decide, fun data => ?_⟩
  exact processChunksAux_nil_key data.length data (le_refl _)

/-- Embeds `build_output_path` (src/main.rs:253-262) on the canonicalized
    input path, modelled as its list of path components below the
    filesystem root: join the parent directory (`dropLast`) with
    `OUTPUT_DIR` and the file name (`getLast?`); a path with no parent
    (the filesystem root, `[]`) is an error. -/
def build_output_path (abs : List String) : Option (List String) :=
  match abs.getLast? with
  | none => none
  | some name => some (abs.dropLast ++ [OUTPUT_DIR, name])

/-- C4: for an input file whose canonical path is `D/sub/f` (a path with a
    parent directory), the derived output path is `D/sub/xor/f`. -/
theorem build_output_path_mirror (D : List String) (sub f : String) :
    build_output_path (D ++ [sub, f]) = some (D ++ [sub, OUTPUT_DIR, f]) := by
  unfold build_output_path
  have hsplit : D ++ [sub, f] = (D ++ [sub]) ++ [f] := by simp
  rw [hsplit, List.getLast?_concat, List.dropLast_concat]
  simp

/-- Witness for the amended C1 at a concrete one-byte file and key. -/
theorem process_file_output_byte_witness :
    ([7] : List Nat) ≠ [] ∧ 0 < ([5] : List Nat).length ∧
      (processChunks [7] [5])[0]?
        = ((([5] : List Nat))[0]?).map
            (fun b => b ^^^ ([7] : List Nat).getD ((0 % CHUNK) % ([7] : List Nat).length) 0) :=
  ⟨by decide, by decide, process_file_output_byte [7] [5] 0 (by decide) (by decide)⟩

/-- A directory snapshot: an ordered tree of named files and directories.
    Children are ordered as the operating system enumerates them, which is
    the order `walkdir` visits them. -/
inductive FsTree where
  | file : String → FsTree
  | dir : String → List FsTree → FsTree

/-- Embeds `filter_entry` (src/main.rs:183-194) on component-list paths:
    exclude everything under `root/OUTPUT_DIR`; descend into a directory
    only if `recursive` is set or it is the root itself; otherwise yield
    files. -/
def filter_entry (path : List String) (isDir : Bool)
    (root : List String) (recursive : Bool) : Bool :=
  if (root ++ [OUTPUT_DIR]).isPrefixOf path then false
  else if isDir then recursive || path == root
  else true

mutual

/-- The filtered `walkdir` traversal of one tree node whose parent
    directory is `path`: an entry rejected by the predicate is neither
    yielded nor descended into (the `filter_entry` semantics of the
    `walkdir` crate used at src/main.rs:170-172). -/
def walkTree (p : List String → Bool → Bool) (path : List String) :
    FsTree → List (List String × Bool)
  | .file name =>
    if p (path ++ [name]) false then [(path ++ [name], false)] else []
  | .dir name children =>
    if p (path ++ [name]) true then
      (path ++ [name], true) :: walkForest p (path ++ [name]) children
    else []

/-- The filtered traversal of an ordered list of siblings. -/
def walkForest (p : List String → Bool → Bool) (path : List String) :
    List FsTree → List (List String × Bool)
  | [] => []
  | t :: ts => walkTree p path t ++ walkForest p path ts

end

/-- The walk performed by `process_directory` (src/main.rs:169-181):
    `WalkDir::new(root)` yields the root entry itself first, then the tree
    below it, with `filter_entry` pruning applied to every entry, the root
    included.  `children` is the snapshot of the tree below `root`. -/
def walkDir (p : List String → Bool → Bool) (root : List String)
    (children : List FsTree) : List (List String × Bool) :=
  if p root true then (root, true) :: walkForest p root children else []

mutual

theorem walkTree_mem (p : List String → Bool → Bool) (path : List String) (t : FsTree) :
    ∀ e ∈ walkTree p path t, p e.1 e.2 = true := by
  cases t with
  | file name =>
    intro e he
    by_cases h : p (path ++ [name]) false = true
    · simp only [walkTree, h, if_true, List.mem_singleton] at he
      subst he
      exact h
    · simp [walkTree, h] at he
  | dir name children =>
    intro e he
    by_cases h : p (path ++ [name]) true = true
    · simp only [walkTree, h, if_true, List.mem_cons] at he
      rcases he with he | he
      · subst he; exact h
      · exact walkForest_mem p (path ++ [name]) children e he
    · simp [walkTree, h] at he

theorem walkForest_mem (p : List String → Bool → Bool) (path : List String) (ts : List FsTree) :
    ∀ e ∈ walkForest p path ts, p e.1 e.2 = true := by
  cases ts with
  | nil => intro e he; simp [walkForest] at he
  | cons t rest =>
    intro e he
    simp only [walkForest, List.mem_append] at he
    rcases he with he | he
    · exact walkTree_mem p path t e he
    · exact walkForest_mem p path rest e he

end

theorem walkDir_mem (p : List String → Bool → Bool) (root : List String)
    (children : List FsTree) : ∀ e ∈ walkDir p root children, p e.1 e.2 = true := by
  intro e he
  unfold walkDir at he
  by_cases h : p root true = true
  · rw [if_pos h] at he
    rcases List.mem_cons.mp he with he | he
    · subst he; exact h
    · exact walkForest_mem p root children e he
  · rw [if_neg h] at he
    simp at he

/-- C2: for every root, snapshot and both values of the recursive flag, the
    filtered walk never yields an entry whose path is under `root/xor`
    (`root/xor` itself included): such entries are excluded before being
    yielded or descended into. -/
theorem walk_excludes_output_subtree (root : List String) (recursive : Bool)
    (children : List FsTree) (e : List String × Bool)
    (he : e ∈ walkDir (fun q d => filter_entry q d root recursive) root children) :
    (root ++ [OUTPUT_DIR]).isPrefixOf e.1 = false := by
  have hp := walkDir_mem (fun q d => filter_entry q d root recursive) root children e he
  simp only at hp
  unfold filter_entry at hp
  by_cases h : (root ++ [OUTPUT_DIR]).isPrefixOf e.1 = true
  · rw [if_pos h] at hp
    exact absurd hp (by decide)
  · exact Bool.not_eq_true _ ▸ (Bool.eq_false_iff.mpr (fun hc => h hc))

/-- Witness for C2: in a snapshot whose root contains a file `a.txt` and a
    previously created `xor` directory, the file entry is yielded and its
    path is not under `root/xor`. -/
theorem walk_excludes_output_subtree_witness :
    (["r", "a.txt"], false) ∈ walkDir
        (fun q d => filter_entry q d ["r"] true) ["r"]
        [.file "a.txt", .dir "xor" [.file "b"]] ∧
      ((["r"] : List String) ++ [OUTPUT_DIR]).isPrefixOf ["r", "a.txt"] = false :=
  ⟨by decide, walk_excludes_output_subtree ["r"] true
      [.file "a.txt", .dir "xor" [.file "b"]] (["r", "a.txt"], false) (by decide)⟩

theorem isPrefixOf_append_singleton (l : List String) (a : String) :
    (l ++ [a]).isPrefixOf l = false := by
  induction l with
  | nil => rfl
  | cons x xs ih =>
    simp only [List.cons_append, List.isPrefixOf, List.append_eq, ih, Bool.and_false]

/-- With `recursive` unset, the root directory itself always passes the
    filter. -/
theorem filter_entry_root (root : List String) (recursive : Bool) :
    filter_entry root true root recursive = true := by
  unfold filter_entry
  rw [if_neg (by rw [isPrefixOf_append_singleton]; exact Bool.false_ne_true)]
  simp

theorem walkForest_nonrecursive (root : List String) (ts : List FsTree) :
    ∀ e ∈ walkForest (fun q d => filter_entry q d root false) root ts,
      ∃ name, e = (root ++ [name], false) := by
  induction ts with
  | nil => intro e he; simp [walkForest] at he
  | cons t rest ih =>
    intro e he
    simp only [walkForest, List.mem_append] at he
    rcases he with he | he
    · cases t with
      | file name =>
        by_cases h : filter_entry (root ++ [name]) false root false = true
        · simp only [walkTree, h, if_true, List.mem_singleton] at he
          exact ⟨name, he⟩
        · simp [walkTree, h] at he
      | dir name children =>
        have h : filter_entry (root ++ [name]) true root false = false := by
          unfold filter_entry
          by_cases hx : (root ++ [OUTPUT_DIR]).isPrefixOf (root ++ [name]) = true
          · rw [if_pos hx]
          · rw [if_neg hx, if_pos rfl]
            have hne : ((root ++ [name]) == root) = false := by
              rw [beq_eq_false_iff_ne]
              intro hc
              have hlen := congrArg List.length hc
              simp at hlen
            simp [hne]
        simp [walkTree, h] at he
    · exact ih e he

/-- C5: with the recursive flag unset, every entry the walk yields is the
    root directory itself or a file directly inside the root: no other
    directory is descended into, so nothing under `root/child` is
    yielded. -/
theorem walk_nonrecursive_scope (root : List String) (children : List FsTree)
    (e : List String × Bool)
    (he : e ∈ walkDir (fun q d => filter_entry q d root false) root children) :
    e = (root, true) ∨ ∃ name, e = (root ++ [name], false) := by
  unfold walkDir at he
  rw [if_pos (filter_entry_root root false)] at he
  rcases List.mem_cons.mp he with he | he
  · exact Or.inl he
  · exact Or.inr (walkForest_nonrecursive root children e he)

/-- Witness for C5: a snapshot with a direct file and a populated
    subdirectory; the direct file's entry is yielded and is a direct child
    of the root. -/
theorem walk_nonrecursive_scope_witness :
    (["r", "a.txt"], false) ∈ walkDir
        (fun q d => filter_entry q d ["r"] false) ["r"]
        [.file "a.txt", .dir "child" [.file "c"]] ∧
      ((["r", "a.txt"], false) = ((["r"] : List String), true) ∨
        ∃ name, (["r", "a.txt"], false) = ((["r"] : List String) ++ [name], false)) :=
  ⟨by decide, walk_nonrecursive_scope ["r"] [.file "a.txt", .dir "child" [.file "c"]]
      (["r", "a.txt"], false) (by decide)⟩

/-- The sequence of file paths the `process_directory` loop processes: the
    filtered walk restricted to its file entries
    (`entry.file_type().is_file()`, src/main.rs:176). -/
def walkFiles (root : List String) (recursive : Bool)
    (children : List FsTree) : List (List String) :=
  ((walkDir (fun q d => filter_entry q d root recursive) root children).filter
      (fun e => !e.2)).map (fun e => e.1)

/-- C7: the walk is a pure function of the directory snapshot: two
    invocations over the same snapshot with the same root and flag produce
    the same sequence of file paths in the same order.  (The snapshot is
    an ordered tree: the order in which the operating system enumerates
    each directory is part of the snapshot, as the code does not sort.) -/
theorem walkFiles_deterministic (root : List String) (recursive : Bool)
    (t1 t2 : List FsTree) (h : t1 = t2) :
    walkFiles root recursive t1 = walkFiles root recursive t2 := by
  rw [h]

/-- Witness for C7 on a concrete snapshot. -/
theorem walkFiles_deterministic_witness :
    [FsTree.file "a"] = [FsTree.file "a"] ∧
      walkFiles ["r"] true [FsTree.file "a"] = walkFiles ["r"] true [FsTree.file "a"] :=
  ⟨rfl, walkFiles_deterministic ["r"] true [FsTree.file "a"] [FsTree.file "a"] rfl⟩

theorem isPrefixOf_of_append (bad : List String) :
    ∀ (path l : List String), bad.length ≤ path.length →
      bad.isPrefixOf (path ++ l) = true → bad.isPrefixOf path = true := by
  induction bad with
  | nil =>
    intro path l _ _
    cases path <;> rfl
  | cons b bs ih =>
    intro path l h hp
    cases path with
    | nil => simp at h
    | cons q qs =>
      simp only [List.cons_append, List.isPrefixOf, List.append_eq, Bool.and_eq_true] at hp ⊢
      exact ⟨hp.1, ih qs l (by simpa using h) hp.2⟩

theorem not_isPrefixOf_append (bad path l : List String)
    (hlen : bad.length ≤ path.length) (h : bad.isPrefixOf path = false) :
    bad.isPrefixOf (path ++ l) = false := by
  cases hb : bad.isPrefixOf (path ++ l) with
  | false => rfl
  | true =>
    have hc := isPrefixOf_of_append bad path l hlen hb
    rw [h] at hc
    exact absurd hc (by decide)

/-- `root/xor` is never a path prefix of a path that continues below `root`
    with a first component other than `xor`. -/
theorem output_dir_not_prefix_of_other (R : List String) (s : String) (l : List String)
    (hs : s ≠ OUTPUT_DIR) :
    (R ++ [OUTPUT_DIR]).isPrefixOf (R ++ s :: l) = false := by
  induction R with
  | nil =>
    simp only [List.nil_append, List.isPrefixOf]
    have hb : (OUTPUT_DIR == s) = false := by
      rw [beq_eq_false_iff_ne]
      exact fun h => hs h.symm
    simp [hb]
  | cons r rs ih =>
    simp only [List.cons_append, List.isPrefixOf, List.append_eq, ih, Bool.and_false]

/-- With the recursive flag set, the filter reduces to the output-directory
    exclusion alone. -/
theorem filter_entry_recursive (q : List String) (d : Bool) (R : List String) :
    filter_entry q d R true = !((R ++ [OUTPUT_DIR]).isPrefixOf q) := by
  unfold filter_entry
  cases h : (R ++ [OUTPUT_DIR]).isPrefixOf q with
  | false => cases d <;> simp
  | true => simp

/-- Builds the chain of nested directories named by `names`, ending at the
    subtree `t`. -/
def nestChain : List String → FsTree → FsTree
  | [], t => t
  | n :: rest, t => .dir n [nestChain rest t]

theorem walkTree_nestChain_mem (R : List String) (names : List String) :
    ∀ (path : List String) (t : FsTree) (e : List String × Bool),
      (R ++ [OUTPUT_DIR]).length ≤ path.length →
      (R ++ [OUTPUT_DIR]).isPrefixOf path = false →
      e ∈ walkTree (fun q d => filter_entry q d R true) (path ++ names) t →
      e ∈ walkTree (fun q d => filter_entry q d R true) path (nestChain names t) := by
  induction names with
  | nil => intro path t e _ _ he; simpa using he
  | cons n rest ih =>
    intro path t e hlen h he
    have hq : (R ++ [OUTPUT_DIR]).isPrefixOf (path ++ [n]) = false :=
      not_isPrefixOf_append _ _ _ hlen h
    have hcond : filter_entry (path ++ [n]) true R true = true := by
      rw [filter_entry_recursive, hq]
      rfl
    have hstep : walkTree (fun q d => filter_entry q d R true) path (nestChain (n :: rest) t)
        = (path ++ [n], true)
            :: walkForest (fun q d => filter_entry q d R true) (path ++ [n]) [nestChain rest t] := by
      simp only [nestChain, walkTree]
      rw [if_pos hcond]
    rw [hstep]
    apply List.mem_cons_of_mem
    simp only [walkForest, List.append_nil]
    have hlen' : (R ++ [OUTPUT_DIR]).length ≤ (path ++ [n]).length := by
      simp only [List.length_append, List.length_cons, List.length_nil] at hlen ⊢
      omega
    rw [List.append_cons] at he
    exact ih (path ++ [n]) t e hlen' hq he

/-- C9: the traversal filter excludes only the reserved output directory
    directly under the root: a nested directory `R/s/.../xor` whose first
    component below the root is `s ≠ "xor"` is descended into by a
    recursive walk, and the files inside it are yielded — so a recursive
    run can re-process output files created by an earlier run at deeper
    levels of the tree. -/
theorem walk_yields_nested_output (R : List String) (s : String)
    (rest : List String) (f : String) (hs : s ≠ OUTPUT_DIR) :
    (R ++ s :: (rest ++ [OUTPUT_DIR, f]), false)
      ∈ walkDir (fun q d => filter_entry q d R true) R
          [nestChain (s :: rest) (.dir OUTPUT_DIR [.file f])] := by
  unfold walkDir
  rw [if_pos (filter_entry_root R true)]
  apply List.mem_cons_of_mem
  simp only [walkForest, List.append_nil]
  have hq0 : (R ++ [OUTPUT_DIR]).isPrefixOf (R ++ [s]) = false :=
    output_dir_not_prefix_of_other R s [] hs
  have hcond0 : filter_entry (R ++ [s]) true R true = true := by
    rw [filter_entry_recursive, hq0]
    rfl
  have hstep : walkTree (fun q d => filter_entry q d R true) R
        (nestChain (s :: rest) (.dir OUTPUT_DIR [.file f]))
      = (R ++ [s], true)
          :: walkForest (fun q d => filter_entry q d R true) (R ++ [s])
              [nestChain rest (.dir OUTPUT_DIR [.file f])] := by
    simp only [nestChain, walkTree]
    rw [if_pos hcond0]
  rw [hstep]
  apply List.mem_cons_of_mem
  simp only [walkForest, List.append_nil]
  apply walkTree_nestChain_mem R rest (R ++ [s]) (.dir OUTPUT_DIR [.file f])
  · simp
  · exact hq0
  · have heq1 : ((R ++ [s]) ++ rest) ++ [OUTPUT_DIR] = R ++ s :: (rest ++ [OUTPUT_DIR]) := by
      simp [List.append_assoc]
    have hcond1 : filter_entry (((R ++ [s]) ++ rest) ++ [OUTPUT_DIR]) true R true = true := by
      rw [filter_entry_recursive, heq1, output_dir_not_prefix_of_other R s _ hs]
      rfl
    have hstep2 : walkTree (fun q d => filter_entry q d R true) ((R ++ [s]) ++ rest)
          (FsTree.dir OUTPUT_DIR [.file f])
        = (((R ++ [s]) ++ rest) ++ [OUTPUT_DIR], true)
            :: walkForest (fun q d => filter_entry q d R true)
                (((R ++ [s]) ++ rest) ++ [OUTPUT_DIR]) [.file f] := by
      simp only [walkTree]
      rw [if_pos hcond1]
    rw [hstep2]
    apply List.mem_cons_of_mem
    simp only [walkForest, List.append_nil]
    have heq2 : ((((R ++ [s]) ++ rest) ++ [OUTPUT_DIR]) ++ [f])
        = R ++ s :: (rest ++ [OUTPUT_DIR, f]) := by
      simp [List.append_assoc]
    have hcond2 : filter_entry ((((R ++ [s]) ++ rest) ++ [OUTPUT_DIR]) ++ [f]) false R true
        = true := by
      rw [filter_entry_recursive, heq2, output_dir_not_prefix_of_other R s _ hs]
      rfl
    have hstep3 : walkTree (fun q d => filter_entry q d R true)
          (((R ++ [s]) ++ rest) ++ [OUTPUT_DIR]) (FsTree.file f)
        = [(((((R ++ [s]) ++ rest) ++ [OUTPUT_DIR]) ++ [f]), false)] := by
      simp only [walkTree]
      rw [if_pos hcond2]
    rw [hstep3, ← heq2]
    exact List.mem_singleton.mpr rfl

/-- Witness for C9: the nested directory `r/a/xor` is walked and the file
    `r/a/xor/b.txt` inside it is yielded. -/
theorem walk_yields_nested_output_witness :
    "a" ≠ OUTPUT_DIR ∧
      ((["r"] : List String) ++ "a" :: (([] : List String) ++ [OUTPUT_DIR, "b.txt"]), false)
        ∈ walkDir (fun q d => filter_entry q d ["r"] true) ["r"]
            [nestChain ("a" :: []) (.dir OUTPUT_DIR [.file "b.txt"])] :=
  ⟨by decide, walk_yields_nested_output ["r"] "a" [] "b.txt" (by decide)⟩

/-- The `processed` values passed to `progress.update` by the chunk loop of
    `process_file` (src/main.rs:216-236).  At iteration `k` the loop reads
    `read_count = min CHUNK remaining` bytes, adds them to `processed`, and
    calls `update(processed, total)` iff the throttle interval has elapsed
    (`throttle k`, an oracle standing for the wall-clock test
    `now - last_update > PROGRESS_INTERVAL`) or `processed == total`.
    `fuel` bounds the iterations as in `processChunksAux`. -/
def progressUpdates (throttle : Nat → Bool) (total : Nat) :
    Nat → Nat → Nat → List Nat → List Nat
  | _, _, 0, _ => []
  | k, processed, fuel + 1, data =>
    if data.isEmpty then []
    else
      (if throttle k || (processed + min CHUNK data.length == total)
        then [processed + min CHUNK data.length] else [])
        ++ progressUpdates throttle total (k + 1) (processed + min CHUNK data.length)
            fuel (data.drop CHUNK)

/-- All `processed` values passed to `update` while processing a file whose
    bytes are `data` (so `total_size = data.length`). -/
def fileProgressUpdates (throttle : Nat → Bool) (data : List Nat) : List Nat :=
  progressUpdates throttle data.length 0 0 data.length data

theorem progressUpdates_nil (throttle : Nat → Bool) (total k p fuel : Nat) :
    progressUpdates throttle total k p fuel [] = [] := by
  cases fuel with
  | zero => rfl
  | succ n => simp [progressUpdates]

theorem progressUpdates_count (throttle : Nat → Bool) (total : Nat) :
    ∀ (fuel : Nat) (k processed : Nat) (data : List Nat),
      data.length ≤ fuel → data ≠ [] → processed + data.length = total →
      (progressUpdates throttle total k processed fuel data).count total = 1 := by
  intro fuel
  induction fuel with
  | zero =>
    intro k processed data h hd _
    exact absurd (List.length_eq_zero.mp (Nat.le_zero.mp h)) hd
  | succ n ih =>
    intro k processed data h hd htot
    have hne : ¬(data.isEmpty = true) := by simp [hd]
    have hpos : 0 < data.length := List.length_pos.mpr hd
    have hchunk : CHUNK = 65536 := rfl
    simp only [progressUpdates]
    rw [if_neg hne]
    by_cases hlast : data.length ≤ CHUNK
    · have hmin : min CHUNK data.length = data.length := by omega
      have hdrop : data.drop CHUNK = [] := List.drop_eq_nil_of_le (by omega)
      rw [hmin, hdrop, progressUpdates_nil, List.append_nil, htot]
      simp
    · have hmin : min CHUNK data.length = CHUNK := by omega
      rw [hmin]
      have hneq : ((processed + CHUNK == total) : Bool) = false := by
        rw [beq_eq_false_iff_ne]
        omega
      rw [hneq, Bool.or_false, List.count_append]
      have hdlen : (data.drop CHUNK).length ≤ n := by
        simp only [List.length_drop]
        omega
      have hdne : data.drop CHUNK ≠ [] := by
        intro hc
        have := congrArg List.length hc
        simp only [List.length_drop, List.length_nil] at this
        omega
      have hdtot : (processed + CHUNK) + (data.drop CHUNK).length = total := by
        simp only [List.length_drop]
        omega
      rw [ih (k + 1) (processed + CHUNK) (data.drop CHUNK) hdlen hdne hdtot]
      have hhead : (if throttle k then [processed + CHUNK] else []).count total = 0 := by
        cases throttle k
        · simp
        · simp only [if_true]
          simp [List.count_cons, hneq]
      rw [hhead]

/-- C6 is refuted at the empty file: for a zero-byte file the chunk loop
    body never runs (the first read returns 0 and the loop breaks), so
    `update` is never invoked — the completed count `S = 0` is reported
    zero times, not exactly once. -/
theorem progress_completion_cex :
    ¬ ((fileProgressUpdates (fun _ => false) []).count
        (List.length ([] : List Nat)) = 1) := by
  decide

/-- C6 (amended): for every file with at least one byte and every throttle
    behaviour, `update` is invoked with `processed = S` (the full file
    size) exactly once during the chunk loop, regardless of the throttle
    interval. -/
theorem progress_completion (throttle : Nat → Bool) (data : List Nat) (hd : data ≠ []) :
    (fileProgressUpdates throttle data).count data.length = 1 :=
  progressUpdates_count throttle data.length data.length 0 0 data (le_refl _) hd (by omega)

/-- Witness for the amended C6 at a concrete one-byte file. -/
theorem progress_completion_witness :
    ([5] : List Nat) ≠ [] ∧
      (fileProgressUpdates (fun _ => false) [5]).count ([5] : List Nat).length = 1 :=
  ⟨by decide, progress_completion (fun _ => false) [5] (by decide)⟩
